import Mathlib

/-!
Verification of the context4all content-ingestion and hybrid-retrieval core.

Strings from the TypeScript source are modelled as `List Char`.  Each
definition below embeds one function of the repository (file and symbol
named in its doc comment); theorems at the end of the file settle the
specification claims against these definitions.
-/

set_option maxHeartbeats 1000000
set_option maxRecDepth 100000

namespace Context4all

/-- JavaScript whitespace as used by `String.prototype.trim` (ASCII core:
space, tab, newline, carriage return, vertical tab, form feed). -/
def isWs (c : Char) : Bool :=
  c = ' ' || c = '\t' || c = '\n' || c = '\r' || c = '\x0b' || c = '\x0c'

/-- `leadsWith pat s` holds when `pat` is an initial run of `s`
(JavaScript `s.startsWith(pat)`). -/
def leadsWith : List Char → List Char → Bool
  | [], _ => true
  | _ :: _, [] => false
  | p :: ps, c :: cs => p = c && leadsWith ps cs

/-- JavaScript `s.includes(pat)`. -/
def strIncludes (pat : List Char) : List Char → Bool
  | [] => leadsWith pat []
  | c :: cs => leadsWith pat (c :: cs) || strIncludes pat cs

/-- JavaScript `s.endsWith(pat)`. -/
def strEndsWith (pat s : List Char) : Bool :=
  leadsWith pat.reverse s.reverse

/-- The literal `'sitemap'`. -/
def sitemapLit : List Char := ['s', 'i', 't', 'e', 'm', 'a', 'p']

/-- The literal `'.xml'`. -/
def xmlLit : List Char := ['.', 'x', 'm', 'l']

/-- The literal `'sitemap.xml'`. -/
def sitemapXmlLit : List Char := sitemapLit ++ xmlLit

/-- The literal `'.txt'`. -/
def txtLit : List Char := ['.', 't', 'x', 't']

/-- Embeds `isSitemap` (src/src/utils/url.ts):
`url.includes('sitemap') && (url.endsWith('.xml') || url.includes('sitemap.xml'))`. -/
def isSitemap (url : List Char) : Bool :=
  strIncludes sitemapLit url && (strEndsWith xmlLit url || strIncludes sitemapXmlLit url)

/-- Embeds `isTextFile` (src/src/utils/url.ts): `url.endsWith('.txt')`. -/
def isTextFile (url : List Char) : Bool :=
  strEndsWith txtLit url

/-- The three crawl-target kinds assigned by `smartCrawlUrlTool`. -/
inductive CrawlType where
  | text_file
  | sitemap
  | webpage
deriving DecidableEq, Repr

/-- Embeds the crawl-strategy dispatch of `smartCrawlUrlTool`
(src/src/tools/smart_crawl_url.ts): `if (isTextFile(url)) ... else if
(isSitemap(url)) ... else ...`. -/
def classifyUrl (url : List Char) : CrawlType :=
  if isTextFile url then .text_file
  else if isSitemap url then .sitemap
  else .webpage

/-- The classification as worded by the claim: sitemap requires the URL to
end in `'.xml'` (written from the specification sentence, for comparison
with `classifyUrl`). -/
def classifyUrlClaim (url : List Char) : CrawlType :=
  if strEndsWith txtLit url then .text_file
  else if strIncludes sitemapLit url && strEndsWith xmlLit url then .sitemap
  else .webpage

/-- A URL that the code classifies as a sitemap but the claim's rule
classifies as a webpage: it contains `'sitemap.xml'` without ending in
`'.xml'`. -/
def sitemapQueryUrl : List Char :=
  ['h', 't', 't', 'p', 's', ':', '/', '/', 'a', '.', 'c', 'o', '/',
   's', 'i', 't', 'e', 'm', 'a', 'p', '.', 'x', 'm', 'l', '?', 'p', '=', '1']

/-- JavaScript `s.trimStart()` (leading whitespace removed). -/
def trimL (s : List Char) : List Char := s.dropWhile isWs

/-- JavaScript `s.trimEnd()` (trailing whitespace removed). -/
def trimR (s : List Char) : List Char := (s.reverse.dropWhile isWs).reverse

/-- JavaScript `s.trim()`. -/
def trim (s : List Char) : List Char := trimR (trimL s)

/-- The backtick character (code point 96). -/
def tick : Char := Char.ofNat 96

/-- The triple-backtick fence marker. -/
def fenceLit : List Char := [tick, tick, tick]

/-- Positions of the triple-backtick fence found by the repeated-`indexOf`
loop of `extractCodeBlocks` (src/src/utils/code.ts): the first occurrence
is recorded and the scan resumes three characters later. -/
def tickPos : List Char → List Nat
  | c1 :: c2 :: c3 :: rest =>
    if c1 = tick ∧ c2 = tick ∧ c3 = tick then
      0 :: (tickPos rest).map (· + 3)
    else
      (tickPos (c2 :: c3 :: rest)).map (· + 1)
  | _ => []

/-- Consecutive pairing of backtick positions: the `while (i <
backtickPositions.length - 1)` loop of `extractCodeBlocks` consumes
positions two at a time. -/
def pairUp : List Nat → List (Nat × Nat)
  | a :: b :: rest => (a, b) :: pairUp rest
  | _ => []

/-- JavaScript `s.substring(a, b)` for `a ≤ b`. -/
def substr (s : List Char) (a b : Nat) : List Char := (s.take b).drop a

/-- JavaScript `s.split('\n', 2)`: at most the first two fields, the
remainder of the string dropped. -/
def splitNlLimit2 (s : List Char) : List (List Char) :=
  let first := s.takeWhile (fun c => c ≠ '\n')
  match s.dropWhile (fun c => c ≠ '\n') with
  | [] => [first]
  | _ :: rest => [first, rest.takeWhile (fun c => c ≠ '\n')]

/-- A fenced code block extracted by `extractCodeBlocks`
(src/src/utils/code.ts). -/
structure CodeBlock where
  code : List Char
  language : List Char
  context_before : List Char
  context_after : List Char
  full_context : List Char
deriving DecidableEq, Repr

/-- The language/content parse of one backtick-delimited section in
`extractCodeBlocks`: a short space-free first line is a language
specifier, in which case the code content is the (trimmed) second field of
`split('\n', 2)`; otherwise the whole trimmed section. -/
def parseSection (codeSection : List Char) : List Char × List Char :=
  let lines := splitNlLimit2 codeSection
  if lines.length > 1 then
    let firstLine := trim (lines.headI)
    if firstLine ≠ [] && !(strIncludes [' '] firstLine) && firstLine.length < 20 then
      (firstLine, trim (lines.getD 1 []))
    else
      ([], trim codeSection)
  else
    ([], trim codeSection)

/-- One backtick pair of `extractCodeBlocks` turned into a block record,
with the 1000-character contexts before and after the fence. -/
def parsePair (md : List Char) (p : Nat × Nat) : CodeBlock :=
  let codeSection := substr md (p.1 + 3) p.2
  let lc := parseSection codeSection
  let contextBefore := trim (substr md (p.1 - 1000) p.1)
  let contextAfter := trim (substr md (p.2 + 3) (min md.length (p.2 + 3 + 1000)))
  { code := lc.2
    language := lc.1
    context_before := contextBefore
    context_after := contextAfter
    full_context := contextBefore ++ ['\n', '\n'] ++ lc.2 ++ ['\n', '\n'] ++ contextAfter }

/-- The pair-processing loop of `extractCodeBlocks`: blocks whose code
content is shorter than `minLength` are skipped (`continue`), and both
branches advance by one pair (`i += 2`). -/
def processPairs (md : List Char) (minLength : Nat) : List (Nat × Nat) → List CodeBlock
  | [] => []
  | p :: ps =>
    let block := parsePair md p
    if block.code.length < minLength then processPairs md minLength ps
    else block :: processPairs md minLength ps

/-- Embeds `extractCodeBlocks` (src/src/utils/code.ts): skips a leading
fence of the trimmed content, collects backtick positions, and processes
consecutive pairs. -/
def extractCodeBlocks (md : List Char) (minLength : Nat := 1000) : List CodeBlock :=
  let startOffset := if leadsWith fenceLit (trim md) then 3 else 0
  let positions := (tickPos (md.drop startOffset)).map (· + startOffset)
  processPairs md minLength (pairUp positions)

/-- All backtick pairs of a markdown document, parsed without the length
gate (used to state what `extractCodeBlocks` filters). -/
def allParsedBlocks (md : List Char) : List CodeBlock :=
  let startOffset := if leadsWith fenceLit (trim md) then 3 else 0
  let positions := (tickPos (md.drop startOffset)).map (· + startOffset)
  (pairUp positions).map (parsePair md)

/-- Embeds the code-example collection loop of `smartCrawlUrlTool`
(src/src/tools/smart_crawl_url.ts, lines 260-311): for each crawled
`(url, markdown)` document the blocks of `extractCodeBlocks` (default
`minLength`) are appended with a running global chunk number. -/
def collectCodeExamples (docs : List (List Char × List Char)) :
    List (List Char × Nat × List Char) :=
  docs.foldl
    (fun acc doc =>
      acc ++ ((extractCodeBlocks doc.2).enum.map
        (fun bi => (doc.1, acc.length + bi.1, bi.2.code))))
    []

/-- A markdown document with a single fenced 1000-character code block,
used to witness C10. -/
def c10Md : List Char :=
  ('x' :: '\n' :: fenceLit) ++ '\n' :: List.replicate 1000 'a' ++ '\n' :: fenceLit

/-- The 1024-dimensional all-zero embedding vector used as the
"embedding unavailable" sentinel (`new Array(1024).fill(0)`). -/
def zeroVec : List ℚ := List.replicate 1024 0

/-- Embeds `createEmbeddingsBatch` (src/src/utils/reranker.ts /
embeddings.ts).  `batchCall` is the outcome of the single batch request
(`maxRetries` is 1, so exactly one attempt is made and its failure goes
straight to the per-item fallback); `indivCall i` is the outcome of the
individual request for text `i`.  On batch success the code returns
`response.data.map(item => item.embedding)` unchanged; in the fallback,
`individualResponse.data[0].embedding` on an empty `data` array raises
inside the per-item `try`, which the per-item `catch` converts to the
zero vector. -/
def createEmbeddingsBatch (texts : List (List Char)) (hasClient : Bool)
    (batchCall : Except Unit (List (List ℚ)))
    (indivCall : Nat → Except Unit (List (List ℚ))) : List (List ℚ) :=
  if texts.isEmpty then []
  else if !hasClient then texts.map (fun _ => zeroVec)
  else
    match batchCall with
    | .ok data => data
    | .error _ =>
      (List.range texts.length).map (fun i =>
        match indivCall i with
        | .ok (v :: _) => v
        | .ok [] => zeroVec
        | .error _ => zeroVec)

/-- A hybrid-search result row as returned by the `match_code_examples`
RPC and manipulated by `searchCodeExamplesTool`. -/
structure SearchResult where
  id : String
  url : String
  chunk_number : Int
  content : String
  summary : String
  metadata : String
  source_id : String
  similarity : ℚ
  rerank_score : Option ℚ
deriving DecidableEq, Repr

/-- A keyword-search row (the ILIKE query selects
`id, url, chunk_number, content, summary, metadata, source_id`). -/
structure KeywordRow where
  id : String
  url : String
  chunk_number : Int
  content : String
  summary : String
  metadata : String
  source_id : String
deriving DecidableEq, Repr

/-- The keyword-to-vector format conversion of `searchCodeExamplesTool`:
keyword-only matches get the fixed default similarity 0.5 and no rerank
score. -/
def convertKeywordRow (kr : KeywordRow) : SearchResult :=
  { id := kr.id
    url := kr.url
    chunk_number := kr.chunk_number
    content := kr.content
    summary := kr.summary
    metadata := kr.metadata
    source_id := kr.source_id
    similarity := 1 / 2
    rerank_score := none }

/-- Sets `rerank_score` of the element at index `i` (the in-place
`results[index].rerank_score = ...` assignment of `rerankAndMergeResults`). -/
def setScoreAt (l : List SearchResult) (i : Nat) (q : ℚ) : List SearchResult :=
  l.enum.map (fun ir => if ir.1 = i then { ir.2 with rerank_score := some q } else ir.2)

/-- The score-application loop of `rerankAndMergeResults`
(src/src/utils/reranker.ts): each returned `(index, relevanceScore)` pair
with `0 ≤ index < results.length` updates that row's `rerank_score`. -/
def applyRerankScores (results : List SearchResult)
    (scored : List (Nat × ℚ)) : List SearchResult :=
  scored.foldl
    (fun acc iq => if iq.1 < acc.length then setScoreAt acc iq.1 iq.2 else acc)
    results

/-- The final `[...results].sort((a, b) => (b.rerank_score || 0) -
(a.rerank_score || 0))` of `rerankAndMergeResults`: a stable descending
sort on `rerank_score` with missing scores read as 0. -/
def sortByRerankDesc (l : List SearchResult) : List SearchResult :=
  l.mergeSort (fun a b => decide ((b.rerank_score.getD 0) ≤ (a.rerank_score.getD 0)))

/-- Embeds `rerankAndMergeResults` (src/src/utils/reranker.ts, lines
111-152).  `rerankCall` is the outcome of the Cohere rerank request; the
whole body is inside `try`/`catch`, and the `catch` returns the original
`results`, so the function never throws. -/
def rerankAndMergeResults (results : List SearchResult)
    (rerankCall : Except Unit (List (Nat × ℚ))) : List SearchResult :=
  if results.isEmpty then results
  else
    match rerankCall with
    | .error _ => results
    | .ok scored => sortByRerankDesc (applyRerankScores results scored)

/-- Embeds the reranking step of `searchCodeExamplesTool`
(src/src/tools/search_code_examples.ts, lines 225-235): when reranking is
enabled and there are results, the tool calls `rerankAndMergeResults` and
then sets `rerankingApplied = true`; its own `catch` (which would leave
the flag `false`) can only run if `rerankAndMergeResults` throws, which it
never does. -/
def rerankStep (useReranking : Bool) (results : List SearchResult)
    (rerankCall : Except Unit (List (Nat × ℚ))) : List SearchResult × Bool :=
  if useReranking && !results.isEmpty then
    (rerankAndMergeResults results rerankCall, true)
  else
    (results, false)

/-- A concrete search result used in counterexamples and witnesses. -/
def sampleResult : SearchResult :=
  { id := "1", url := "u", chunk_number := 0, content := "c", summary := "s"
    metadata := "m", source_id := "d", similarity := 9 / 10, rerank_score := none }

/-- A concrete keyword row sharing `sampleResult`'s id, used in
witnesses. -/
def sampleKw : KeywordRow :=
  { id := "1", url := "u", chunk_number := 0, content := "c", summary := "s"
    metadata := "m", source_id := "d" }

/-- A vector hit with the given id and similarity (concrete inputs for
witnesses). -/
def mkRes (i : String) (q : ℚ) : SearchResult :=
  { id := i, url := "u", chunk_number := 0, content := "c", summary := "s"
    metadata := "m", source_id := "d", similarity := q, rerank_score := none }

/-- A keyword row with the given id (concrete inputs for witnesses). -/
def mkKw (i : String) : KeywordRow :=
  { id := i, url := "u", chunk_number := 0, content := "c", summary := "s"
    metadata := "m", source_id := "d" }

/-- A row of the `sources` table. -/
structure SourceRow where
  source_id : String
  summary : String
  total_word_count : Nat
deriving DecidableEq, Repr

/-- The supabase `update(...).eq('source_id', sourceId)` call of
`updateSourceInfo` (src/src/utils/metadata.ts): it rewrites `summary` and
`total_word_count` on every row whose `source_id` matches, and since the
call requests no `count` option, supabase-js reports `count = null`,
modelled as `none`. -/
def sourcesUpdate (rows : List SourceRow) (sid summ : String) (wc : Nat) :
    List SourceRow × Option Nat :=
  (rows.map (fun r =>
    if r.source_id = sid then { r with summary := summ, total_word_count := wc } else r),
   none)

/-- Modelled from the spec: the `sources` table schema is not under src/;
§3 states SourceRecord is "keyed by `source_id`", so an insert whose key
already exists is rejected by the store (supabase surfaces this as a
result error, not an exception, and `updateSourceInfo` ignores the insert
result). -/
def sourcesInsert (rows : List SourceRow) (row : SourceRow) : List SourceRow :=
  if rows.any (fun r => r.source_id = row.source_id) then rows else rows ++ [row]

/-- Embeds `updateSourceInfo` (src/src/utils/metadata.ts, lines 56-91):
update first, read `result.count || 0` (always 0, because `count` is
`null`), and insert when that reads 0. -/
def updateSourceInfo (rows : List SourceRow) (sid summ : String) (wc : Nat) :
    List SourceRow :=
  let upd := sourcesUpdate rows sid summ wc
  let rowsAffected := upd.2.getD 0
  if rowsAffected = 0 then
    sourcesInsert upd.1 { source_id := sid, summary := summ, total_word_count := wc }
  else
    upd.1

/-- A concrete pre-existing `sources` row used to witness C8. -/
def c8Row : SourceRow :=
  { source_id := "example.com", summary := "old", total_word_count := 1 }

/-- A concrete two-line markdown document used to witness C5. -/
def c5Md : List Char := ['a', 'b', '\n', 'c', 'd']

/-- JavaScript `markdown.split('\n')`: the empty string yields one empty
field, and every newline starts a new field. -/
def splitNl : List Char → List (List Char)
  | [] => [[]]
  | c :: rest =>
    if c = '\n' then [] :: splitNl rest
    else
      match splitNl rest with
      | l :: ls => (c :: l) :: ls
      | [] => [[c]]

/-- Rejoin of split lines, each with the `'\n'` that
`smartChunkMarkdown` appends per line: `joinNl (splitNl m) = m ++ ['\n']`. -/
def joinNl (lines : List (List Char)) : List Char :=
  (lines.map (fun l => l ++ ['\n'])).flatten

/-- All characters whitespace. -/
def wsOnly (s : List Char) : Bool := s.all isWs

/-- The last character exists and is not whitespace. -/
def endsNonWs (s : List Char) : Bool :=
  match s.getLast? with
  | some c => !(isWs c)
  | none => false

/-- Embeds the line loop of `smartChunkMarkdown`
(src/src/utils/content_processor.ts): greedy line accumulation; a chunk
is flushed (trimmed) when appending the next line would exceed
`maxChunkSize` and the accumulated chunk trims to something non-empty,
and a trailing non-blank accumulation is flushed at the end.  `curSize`
carries the source's separately-tracked `currentSize` counter. -/
def smartChunkAux (maxSize : Nat) : List (List Char) → List Char → Nat → List (List Char)
  | [], cur, _ => if trim cur ≠ [] then [trim cur] else []
  | l :: ls, cur, curSize =>
    let lineSize := l.length + 1
    if curSize + lineSize > maxSize ∧ trim cur ≠ [] then
      trim cur :: smartChunkAux maxSize ls (l ++ ['\n']) lineSize
    else
      smartChunkAux maxSize ls (cur ++ (l ++ ['\n'])) (curSize + lineSize)

/-- Embeds `smartChunkMarkdown` (src/src/utils/content_processor.ts,
lines 8-34). -/
def smartChunkMarkdown (markdown : List Char) (maxChunkSize : Nat := 1000) :
    List (List Char) :=
  smartChunkAux maxChunkSize (splitNl markdown) [] 0

/-- Interleaving of whitespace gaps and chunks: `glue [w0, w1, ..., wk]
[c1, ..., ck] = w0 ++ c1 ++ w1 ++ ... ++ ck ++ wk`.  Used to state that
the chunks reproduce the original markdown up to whitespace trimmed at
chunk boundaries. -/
def glue : List (List Char) → List (List Char) → List Char
  | [w], [] => w
  | w :: ws, c :: cs => w ++ c ++ glue ws cs
  | _, _ => []

/-- `new Set(vectorResults.map(r => r.id).filter(id => id))` of
`searchCodeExamplesTool`: the truthy (non-empty) vector-hit ids. -/
def vectorIds (vh : List SearchResult) : List String :=
  (vh.map SearchResult.id).filter (fun i => i ≠ "")

/-- The inner `for (const vr of vectorResults) if (vr.id === kr.id)`
lookup (with `break`): the first vector hit carrying the given id. -/
def findVec (vh : List SearchResult) (i : String) : Option SearchResult :=
  vh.find? (fun vr => vr.id = i)

/-- `Math.min(1.0, (vr.similarity || 0) * 1.2)`.  A present numeric
similarity makes `|| 0` the identity, and 1.2 is exactly 6/5. -/
def boostSim (q : ℚ) : ℚ := min 1 (q * (6 / 5))

/-- A vector hit with its similarity boosted for appearing in both
searches. -/
def boostResult (vr : SearchResult) : SearchResult :=
  { vr with similarity := boostSim vr.similarity }

/-- Phase (a) of the merge of `searchCodeExamplesTool`
(src/src/tools/search_code_examples.ts, lines 149-167): every keyword hit
whose id is among the truthy vector ids and not yet seen contributes the
first matching vector result, boosted; its id joins the seen set.  Returns
the pushed results and the final seen set. -/
def addBothMatches (vh : List SearchResult) :
    List KeywordRow → List String → List SearchResult × List String
  | [], seen => ([], seen)
  | kr :: krs, seen =>
    if kr.id ∈ vectorIds vh ∧ kr.id ∉ seen then
      match findVec vh kr.id with
      | some vr =>
        let rest := addBothMatches vh krs (kr.id :: seen)
        (boostResult vr :: rest.1, rest.2)
      | none => addBothMatches vh krs seen
    else addBothMatches vh krs seen

/-- Phase (b) (lines 169-175): remaining vector hits with truthy unseen
ids are appended while the combined length is below `match_count`. -/
def addVectorOnly (mc : Nat) :
    List SearchResult → List String → Nat → List SearchResult × List String
  | [], seen, _ => ([], seen)
  | vr :: vrs, seen, len =>
    if vr.id ≠ "" ∧ vr.id ∉ seen ∧ len < mc then
      let rest := addVectorOnly mc vrs (vr.id :: seen) (len + 1)
      (vr :: rest.1, rest.2)
    else addVectorOnly mc vrs seen len

/-- Phase (c) (lines 177-195): keyword-only hits, converted with default
similarity 0.5, are appended while the combined length is below
`match_count`. -/
def addKeywordOnly (mc : Nat) :
    List KeywordRow → List String → Nat → List SearchResult × List String
  | [], seen, _ => ([], seen)
  | kr :: krs, seen, len =>
    if kr.id ∉ seen ∧ len < mc then
      let rest := addKeywordOnly mc krs (kr.id :: seen) (len + 1)
      (convertKeywordRow kr :: rest.1, rest.2)
    else addKeywordOnly mc krs seen len

/-- Embeds the three-phase hybrid merge of `searchCodeExamplesTool`
(lines 145-195).  A `none` keyword list models a failed keyword search
(`keywordResults` null), which skips phases (a) and (c). -/
def combineHybrid (vh : List SearchResult) (khOpt : Option (List KeywordRow))
    (mc : Nat) : List SearchResult :=
  let ab := match khOpt with
    | some kh => addBothMatches vh kh []
    | none => ([], [])
  let b := addVectorOnly mc vh ab.2 ab.1.length
  let c := match khOpt with
    | some kh => addKeywordOnly mc kh b.2 (ab.1.length + b.1.length)
    | none => ([], b.2)
  ab.1 ++ b.1 ++ c.1

/-- Embeds the result selection of `searchCodeExamplesTool` (lines
105-212): hybrid mode slices the combined list to `match_count` after
requesting `match_count * 2` vector candidates; non-hybrid mode returns
the vector search results as delivered. -/
def searchResults (useHybrid : Bool) (vectorSearch : Nat → List SearchResult)
    (khOpt : Option (List KeywordRow)) (mc : Nat) : List SearchResult :=
  if useHybrid then (combineHybrid (vectorSearch (mc * 2)) khOpt mc).take mc
  else vectorSearch mc

/-- Modelled from the spec: the `match_code_examples` RPC is a database
function not under src/; per §6 it accepts `match_count` and returns
ranked rows of the `code_examples` table, so it delivers at most the
requested number of rows and row ids are pairwise distinct. -/
def vectorSearchContract (vectorSearch : Nat → List SearchResult) : Prop :=
  ∀ n, (vectorSearch n).length ≤ n ∧
    ((vectorSearch n).map SearchResult.id).Nodup

/-- The claim's phase (a), written from the claim's words: for every
keyword hit whose id also appears among the vector hits, the
corresponding (first-matching) vector result with its similarity
boosted. -/
def claimBothPhase (vh : List SearchResult) (kh : List KeywordRow) :
    List SearchResult :=
  (kh.filter (fun k => k.id ∈ vh.map SearchResult.id)).filterMap
    (fun k => (findVec vh k.id).map boostResult)

/-- The claim's phase (b) candidates: vector-only hits (id not among the
keyword hits) in their original order. -/
def claimVectorOnly (vh : List SearchResult) (kh : List KeywordRow) :
    List SearchResult :=
  vh.filter (fun v => v.id ∉ kh.map KeywordRow.id)

/-- The claim's phase (c) candidates: keyword-only hits (id not among the
vector hits), each assigned similarity 0.5. -/
def claimKeywordOnly (vh : List SearchResult) (kh : List KeywordRow) :
    List SearchResult :=
  (kh.filter (fun k => k.id ∉ vh.map SearchResult.id)).map convertKeywordRow

/-- The merge order exactly as the claim words it: all boosted both-signal
hits first, then vector-only hits until `match_count` results are present,
then keyword-only hits until `match_count` results are present. -/
def claimMerge (vh : List SearchResult) (kh : List KeywordRow) (mc : Nat) :
    List SearchResult :=
  let a := claimBothPhase vh kh
  let b := (claimVectorOnly vh kh).take (mc - a.length)
  let c := (claimKeywordOnly vh kh).take (mc - (a.length + b.length))
  a ++ b ++ c

end Context4all

namespace Context4all

/-- C9 (counterexample): the crawl-target classification of the code differs
from the claim's rule on a URL containing `'sitemap.xml'` that does not end
in `'.xml'`: the code yields `sitemap`, the claim's rule yields `webpage`. -/
theorem classifyUrl_counterexample :
    classifyUrl sitemapQueryUrl = CrawlType.sitemap ∧
    classifyUrlClaim sitemapQueryUrl = CrawlType.webpage := by
  constructor <;> rfl

/-- C9 (amended): for every URL, the classification is `text_file` exactly
when the URL ends in `'.txt'`; `sitemap` exactly when it is not a text file,
contains `'sitemap'`, and either ends in `'.xml'` or contains
`'sitemap.xml'`; and `webpage` in every other case. -/
theorem classifyUrl_characterization (url : List Char) :
    (classifyUrl url = CrawlType.text_file ↔ strEndsWith txtLit url = true) ∧
    (classifyUrl url = CrawlType.sitemap ↔
      strEndsWith txtLit url = false ∧
      strIncludes sitemapLit url = true ∧
      (strEndsWith xmlLit url = true ∨ strIncludes sitemapXmlLit url = true)) ∧
    (classifyUrl url = CrawlType.webpage ↔
      strEndsWith txtLit url = false ∧
      (strIncludes sitemapLit url = false ∨
        (strEndsWith xmlLit url = false ∧ strIncludes sitemapXmlLit url = false))) := by
  unfold classifyUrl isTextFile isSitemap
  rcases h1 : strEndsWith txtLit url with _ | _ <;>
    rcases h2 : strIncludes sitemapLit url with _ | _ <;>
      rcases h3 : strEndsWith xmlLit url with _ | _ <;>
        rcases h4 : strIncludes sitemapXmlLit url with _ | _ <;>
          simp_all

theorem processPairs_eq_filter (md : List Char) (minL : Nat) (ps : List (Nat × Nat)) :
    processPairs md minL ps =
      (ps.map (parsePair md)).filter (fun b => decide (minL ≤ b.code.length)) := by
  induction ps with
  | nil => rfl
  | cons p ps ih =>
    simp only [processPairs, List.map_cons, List.filter_cons]
    by_cases h : (parsePair md p).code.length < minL
    · rw [if_pos h, ih]
      have : ¬ (minL ≤ (parsePair md p).code.length) := Nat.not_le.mpr h
      simp [this]
    · rw [if_neg h, ih]
      have : minL ≤ (parsePair md p).code.length := Nat.not_lt.mp h
      simp [this]

theorem mem_collectAux (docs : List (List Char × List Char))
    (acc : List (List Char × Nat × List Char))
    (hacc : ∀ e ∈ acc, 1000 ≤ (e.2.2 : List Char).length)
    (hblocks : ∀ md, ∀ b ∈ extractCodeBlocks md 1000, 1000 ≤ b.code.length) :
    ∀ e ∈ docs.foldl
      (fun acc doc =>
        acc ++ ((extractCodeBlocks doc.2).enum.map
          (fun bi => (doc.1, acc.length + bi.1, bi.2.code))))
      acc, 1000 ≤ (e.2.2 : List Char).length := by
  induction docs generalizing acc with
  | nil => simpa using hacc
  | cons d ds ih =>
    intro e he
    refine ih _ ?_ e he
    intro e' he'
    rcases List.mem_append.mp he' with h | h
    · exact hacc e' h
    · rcases List.mem_map.mp h with ⟨bi, hbi, rfl⟩
      rcases bi with ⟨i, b⟩
      obtain ⟨hi, hb⟩ := List.mem_enum hbi
      have hmem : b ∈ extractCodeBlocks d.2 1000 := hb ▸ List.getElem_mem hi
      exact hblocks d.2 b hmem

/-- C10: code-example extraction returns exactly the fenced blocks whose
code content has at least `minLength` characters (shorter ones are
discarded), so every code example collected for storage by the crawl tool
(which uses the default `minLength` of 1000) has at least 1000 characters
of code. -/
theorem extractCodeBlocks_min_length :
    (∀ md minLength, extractCodeBlocks md minLength =
      (allParsedBlocks md).filter (fun b => decide (minLength ≤ b.code.length))) ∧
    (∀ md minLength, ∀ b ∈ extractCodeBlocks md minLength,
      minLength ≤ b.code.length) ∧
    (∀ docs, ∀ e ∈ collectCodeExamples docs, 1000 ≤ (e.2.2 : List Char).length) := by
  have h1 : ∀ md minLength, extractCodeBlocks md minLength =
      (allParsedBlocks md).filter (fun b => decide (minLength ≤ b.code.length)) := by
    intro md minLength
    unfold extractCodeBlocks allParsedBlocks
    exact processPairs_eq_filter md minLength _
  have h2 : ∀ md minLength, ∀ b ∈ extractCodeBlocks md minLength,
      minLength ≤ b.code.length := by
    intro md minLength b hb
    rw [h1] at hb
    simpa using (List.mem_filter.mp hb).2
  refine ⟨h1, h2, ?_⟩
  intro docs e he
  exact mem_collectAux docs [] (by simp) (fun md => h2 md 1000) e he

/-- Witness for C10: on a concrete document whose one fenced block holds
1000 characters, the collected code example indeed has ≥ 1000 characters. -/
theorem extractCodeBlocks_min_length_witness :
    1000 ≤ ((['u'], 0, List.replicate 1000 'a') :
      List Char × Nat × List Char).2.2.length :=
  extractCodeBlocks_min_length.2.2 [(['u'], c10Md)]
    (['u'], 0, List.replicate 1000 'a') (by decide)

/-- C7 (counterexample): when the single batch request succeeds but the
provider returns fewer items than texts were sent, the code returns the
provider's items as-is — here one vector for two texts — instead of one
vector per input text with zero-filled missing slots. -/
theorem createEmbeddingsBatch_counterexample :
    (createEmbeddingsBatch [['a'], ['b']] true (.ok [[1]]) (fun _ => .ok [])).length = 1 ∧
    (createEmbeddingsBatch [['a'], ['b']] true (.ok [[1]]) (fun _ => .ok [])).length ≠ 2 := by
  constructor <;> decide

/-- C7 (amended): the batch embedding operation is a total function (never
throws).  When the batch call succeeds it returns exactly the provider's
vectors, which may be fewer than the input texts; only when the batch call
fails does the per-item fallback run, and that fallback returns exactly
one vector per input text, substituting the all-zero 1024-dimensional
vector for every slot whose individual call fails or returns no items. -/
theorem createEmbeddingsBatch_fallback (texts : List (List Char))
    (indivCall : Nat → Except Unit (List (List ℚ))) (hne : texts ≠ []) :
    (∀ data, createEmbeddingsBatch texts true (.ok data) indivCall = data) ∧
    (createEmbeddingsBatch texts true (.error ()) indivCall).length = texts.length ∧
    (∀ i, i < texts.length →
      (createEmbeddingsBatch texts true (.error ()) indivCall)[i]? =
        some (match indivCall i with
              | .ok (v :: _) => v
              | .ok [] => zeroVec
              | .error _ => zeroVec)) ∧
    zeroVec.length = 1024 := by
  have hemp : texts.isEmpty = false := by
    cases texts with
    | nil => exact absurd rfl hne
    | cons a l => rfl
  refine ⟨?_, ?_, ?_, by simp [zeroVec]⟩
  · intro data
    simp [createEmbeddingsBatch, hemp]
  · simp [createEmbeddingsBatch, hemp]
  · intro i hi
    simp [createEmbeddingsBatch, hemp, List.getElem?_map, List.getElem?_range, hi]

/-- Witness for C7 (amended) at one text whose individual call fails: the
fallback returns the single zero vector. -/
theorem createEmbeddingsBatch_fallback_witness :
    (createEmbeddingsBatch [['a']] true (.error ())
      (fun _ => .error ()))[0]? = some zeroVec := by
  have h := createEmbeddingsBatch_fallback [['a']] (fun _ => .error ())
    (by decide)
  simpa using h.2.2.1 0 (by decide)

/-- C3 (counterexample): reranking enabled, one result, and the rerank
call fails — the returned list is unchanged, but the tool reports the
rerank-applied flag as `true`, not `false`, because the failure is caught
inside `rerankAndMergeResults` and never reaches the tool's catch. -/
theorem rerankStep_counterexample :
    rerankStep true [sampleResult] (.error ()) = ([sampleResult], true) := rfl

/-- C3 (amended): whenever reranking is enabled, the result list is
non-empty and the rerank call fails, the returned result list is exactly
the pre-rerank merged list in unchanged order, and the rerank-applied flag
is reported as `true` (the flag is `false` only when reranking is disabled
or the list is empty). -/
theorem rerankStep_on_failure (useR : Bool) (results : List SearchResult)
    (rerankCall : Except Unit (List (Nat × ℚ)))
    (hcall : rerankCall = .error ()) (hres : results ≠ []) (huse : useR = true) :
    rerankStep useR results rerankCall = (results, true) := by
  subst hcall huse
  have hemp : results.isEmpty = false := by
    cases results with
    | nil => exact absurd rfl hres
    | cons a l => rfl
  simp [rerankStep, rerankAndMergeResults, hemp]

/-- Witness for C3 (amended) at a concrete failing rerank call. -/
theorem rerankStep_on_failure_witness :
    rerankStep true [sampleResult] (.error ()) = ([sampleResult], true) :=
  rerankStep_on_failure true [sampleResult] (.error ()) rfl (by simp) rfl

theorem sourceRowUpdate_source_id (sid summ : String) (wc : Nat) (r : SourceRow) :
    (if r.source_id = sid then
      { r with summary := summ, total_word_count := wc } else r).source_id =
      r.source_id := by
  by_cases h : r.source_id = sid <;> simp [h]

theorem filter_sid_length_one (sid : String) :
    ∀ l : List SourceRow, (l.map SourceRow.source_id).Nodup →
      (∃ r ∈ l, r.source_id = sid) →
      (l.filter (fun r => decide (r.source_id = sid))).length = 1 := by
  intro l
  induction l with
  | nil => intro _ h; simp at h
  | cons a l ih =>
    intro hnd hex
    have hnd' := hnd
    simp only [List.map_cons, List.nodup_cons] at hnd'
    by_cases ha : a.source_id = sid
    · have hnone : ∀ r ∈ l, ¬ r.source_id = sid := by
        intro r hr hcontra
        exact hnd'.1 (ha ▸ hcontra ▸ List.mem_map_of_mem SourceRow.source_id hr)
      have hfl : l.filter (fun r => decide (r.source_id = sid)) = [] := by
        refine List.filter_eq_nil_iff.mpr ?_
        intro r hr
        simpa using hnone r hr
      simp [List.filter_cons, ha, hfl]
    · have hex' : ∃ r ∈ l, r.source_id = sid := by
        rcases hex with ⟨r, hr, hrs⟩
        rcases List.mem_cons.mp hr with rfl | hmem
        · exact absurd hrs ha
        · exact ⟨r, hmem, hrs⟩
      have := ih hnd'.2 hex'
      simp [List.filter_cons, ha, this]

/-- C8: with the `sources` table keyed by `source_id`, a source-aggregate
write leaves exactly one row for the written `source_id`, carrying the new
summary and word count; rows for other ids are untouched and key
uniqueness is preserved.  (The code always attempts the insert because the
update result carries no affected-row count, but the key makes that
attempt a no-op when the row exists.) -/
theorem updateSourceInfo_upsert (rows : List SourceRow) (sid summ : String) (wc : Nat)
    (hnd : (rows.map SourceRow.source_id).Nodup) :
    ((updateSourceInfo rows sid summ wc).filter
        (fun r => decide (r.source_id = sid))).length = 1 ∧
    ((updateSourceInfo rows sid summ wc).map SourceRow.source_id).Nodup ∧
    (∀ r ∈ updateSourceInfo rows sid summ wc, r.source_id = sid →
      r.summary = summ ∧ r.total_word_count = wc) ∧
    (∀ r ∈ updateSourceInfo rows sid summ wc, r.source_id ≠ sid → r ∈ rows) := by
  have hupd1 : (sourcesUpdate rows sid summ wc).1 =
      rows.map (fun r => if r.source_id = sid then
        { r with summary := summ, total_word_count := wc } else r) := rfl
  have hunfold : updateSourceInfo rows sid summ wc =
      sourcesInsert ((sourcesUpdate rows sid summ wc).1)
        { source_id := sid, summary := summ, total_word_count := wc } := rfl
  have hids : ((sourcesUpdate rows sid summ wc).1).map SourceRow.source_id =
      rows.map SourceRow.source_id := by
    rw [hupd1, List.map_map]
    exact List.map_congr_left (fun r _ => sourceRowUpdate_source_id sid summ wc r)
  by_cases hex : ∃ r ∈ rows, r.source_id = sid
  case pos =>
    have hmemnew : ({ source_id := sid, summary := summ, total_word_count := wc } :
        SourceRow) ∈ (sourcesUpdate rows sid summ wc).1 := by
      rcases hex with ⟨r, hr, hrs⟩
      rw [hupd1]
      refine List.mem_map.mpr ⟨r, hr, ?_⟩
      simp [hrs]
    have hany : ((sourcesUpdate rows sid summ wc).1).any
        (fun r => r.source_id = sid) = true :=
      List.any_eq_true.mpr ⟨_, hmemnew, by simp⟩
    have hres : updateSourceInfo rows sid summ wc = (sourcesUpdate rows sid summ wc).1 := by
      rw [hunfold]
      simp [sourcesInsert, hany]
    rw [hres]
    refine ⟨?_, ?_, ?_, ?_⟩
    · exact filter_sid_length_one sid _ (by rw [hids]; exact hnd)
        ⟨_, hmemnew, by simp⟩
    · rw [hids]; exact hnd
    · intro r hr hrs
      rw [hupd1] at hr
      rcases List.mem_map.mp hr with ⟨r0, _, rfl⟩
      by_cases h0 : r0.source_id = sid
      · simp [h0]
      · rw [if_neg h0] at hrs ⊢
        exact absurd hrs h0
    · intro r hr hrs
      rw [hupd1] at hr
      rcases List.mem_map.mp hr with ⟨r0, hr0, rfl⟩
      by_cases h0 : r0.source_id = sid
      · rw [if_pos h0] at hrs
        simp only at hrs
        exact absurd h0 hrs
      · rw [if_neg h0]; exact hr0
  case neg =>
    push_neg at hex
    have hupd : (sourcesUpdate rows sid summ wc).1 = rows := by
      rw [hupd1]
      refine (List.map_congr_left ?_).trans (List.map_id rows)
      intro r hr
      rw [if_neg (hex r hr)]
      rfl
    have hany : rows.any (fun r => r.source_id = sid) = false := by
      refine List.any_eq_false.mpr ?_
      intro r hr
      simpa using hex r hr
    have hres : updateSourceInfo rows sid summ wc =
        rows ++ [{ source_id := sid, summary := summ, total_word_count := wc }] := by
      rw [hunfold, hupd]
      simp [sourcesInsert, hany]
    rw [hres]
    refine ⟨?_, ?_, ?_, ?_⟩
    · rw [List.filter_append]
      have h1 : rows.filter (fun r => decide (r.source_id = sid)) = [] := by
        refine List.filter_eq_nil_iff.mpr ?_
        intro r hr
        simpa using hex r hr
      simp [h1]
    · rw [List.map_append, List.nodup_append]
      refine ⟨hnd, by simp, ?_⟩
      intro x hx
      rcases List.mem_map.mp hx with ⟨r, hr, rfl⟩
      simp only [List.map_cons, List.map_nil, List.mem_singleton]
      intro hcontra
      exact hex r hr hcontra
    · intro r hr hrs
      rcases List.mem_append.mp hr with h | h
      · exact absurd hrs (hex r h)
      · rcases List.mem_singleton.mp h with rfl
        exact ⟨rfl, rfl⟩
    · intro r hr hrs
      rcases List.mem_append.mp hr with h | h
      · exact h
      · rcases List.mem_singleton.mp h with rfl
        exact absurd rfl hrs

theorem wsOnly_takeWhile (s : List Char) : wsOnly (s.takeWhile isWs) = true := by
  simp only [wsOnly, List.all_eq_true]
  intro c hc
  simpa using List.mem_takeWhile_imp hc

theorem wsOnly_reverse (s : List Char) : wsOnly s.reverse = wsOnly s := by
  simp [wsOnly, List.all_eq_true]

theorem wsOnly_append (s t : List Char) :
    wsOnly (s ++ t) = (wsOnly s && wsOnly t) := by
  simp [wsOnly]

theorem trimR_decomp (s : List Char) :
    s = trimR s ++ (s.reverse.takeWhile isWs).reverse ∧
    wsOnly ((s.reverse.takeWhile isWs).reverse) = true := by
  constructor
  · conv_lhs => rw [← List.reverse_reverse s,
      ← List.takeWhile_append_dropWhile isWs s.reverse]
    rw [List.reverse_append]
    rfl
  · rw [wsOnly_reverse]
    exact wsOnly_takeWhile _

theorem trim_decomp (s : List Char) :
    ∃ pre suf, wsOnly pre = true ∧ wsOnly suf = true ∧
      s = pre ++ trim s ++ suf := by
  refine ⟨s.takeWhile isWs, ((trimL s).reverse.takeWhile isWs).reverse,
    wsOnly_takeWhile s, (trimR_decomp (trimL s)).2, ?_⟩
  have h1 : s = s.takeWhile isWs ++ trimL s :=
    (List.takeWhile_append_dropWhile isWs s).symm
  have h2 := (trimR_decomp (trimL s)).1
  calc s = s.takeWhile isWs ++ trimL s := h1
    _ = s.takeWhile isWs ++ (trimR (trimL s) ++
        ((trimL s).reverse.takeWhile isWs).reverse) := by rw [← h2]
    _ = s.takeWhile isWs ++ trim s ++
        ((trimL s).reverse.takeWhile isWs).reverse := by
          rw [List.append_assoc]; rfl

theorem trim_eq_nil_iff (s : List Char) : trim s = [] ↔ wsOnly s = true := by
  constructor
  · intro h
    obtain ⟨pre, suf, hpre, hsuf, hdec⟩ := trim_decomp s
    rw [h] at hdec
    rw [hdec]
    simp only [List.append_nil, wsOnly_append, hpre, hsuf]
    simp
  · intro h
    have h1 : trimL s = [] := by
      simp only [trimL, List.dropWhile_eq_nil_iff]
      intro c hc
      simp only [wsOnly, List.all_eq_true] at h
      exact h c hc
    simp [trim, h1, trimR]

theorem dropWhile_append_ws (w s : List Char) (hw : wsOnly w = true) :
    (w ++ s).dropWhile isWs = s.dropWhile isWs := by
  induction w with
  | nil => simp
  | cons c cs ih =>
    simp only [wsOnly, List.all_cons, Bool.and_eq_true] at hw
    simp only [List.cons_append, List.dropWhile_cons, hw.1, if_true]
    exact ih (by simpa [wsOnly] using hw.2)

theorem dropWhile_append_of_ne_nil (s w : List Char)
    (h : s.dropWhile isWs ≠ []) :
    (s ++ w).dropWhile isWs = s.dropWhile isWs ++ w := by
  induction s with
  | nil => simp at h
  | cons c cs ih =>
    by_cases hc : isWs c
    · simp only [List.dropWhile_cons, hc, if_true] at h ⊢
      simp only [List.cons_append, List.dropWhile_cons, hc, if_true]
      exact ih h
    · simp only [List.cons_append, List.dropWhile_cons, hc]
      simp

theorem trim_append_ws_left (w s : List Char) (hw : wsOnly w = true) :
    trim (w ++ s) = trim s := by
  simp only [trim, trimL]
  rw [dropWhile_append_ws w s hw]

theorem trimR_append_ws (t w : List Char) (hw : wsOnly w = true) :
    trimR (t ++ w) = trimR t := by
  simp only [trimR, List.reverse_append]
  rw [dropWhile_append_ws _ _ (by rw [wsOnly_reverse]; exact hw)]

theorem trim_append_ws_right (s w : List Char) (hw : wsOnly w = true) :
    trim (s ++ w) = trim s := by
  by_cases h : s.dropWhile isWs = []
  · have hs : wsOnly s = true := by
      simp only [List.dropWhile_eq_nil_iff] at h
      simp only [wsOnly, List.all_eq_true]
      intro c hc
      exact h c hc
    have h1 : trim s = [] := (trim_eq_nil_iff s).mpr hs
    have h2 : trim (s ++ w) = [] := by
      refine (trim_eq_nil_iff _).mpr ?_
      rw [wsOnly_append, hs, hw]
      rfl
    rw [h1, h2]
  · simp only [trim, trimL]
    rw [dropWhile_append_of_ne_nil s w h]
    exact trimR_append_ws _ _ hw

theorem trim_sublist (s : List Char) : List.Sublist (trim s) s := by
  have h1 : List.Sublist (trimL s) s := List.dropWhile_sublist isWs
  have h2 : List.Sublist (trim s) (trimL s) := by
    have h3 : List.Sublist ((trimL s).reverse.dropWhile isWs)
        (trimL s).reverse := List.dropWhile_sublist isWs
    have h4 := h3.reverse
    rwa [List.reverse_reverse] at h4
  exact h2.trans h1

theorem trim_length_le (s : List Char) : (trim s).length ≤ s.length :=
  (trim_sublist s).length_le

theorem trim_endsNonWs (s : List Char) (h : trim s ≠ []) :
    endsNonWs (trim s) = true := by
  have hrev : trim s = ((trimL s).reverse.dropWhile isWs).reverse := rfl
  rcases hx : (trimL s).reverse.dropWhile isWs with _ | ⟨x, xs⟩
  · rw [hrev, hx] at h
    simp at h
  · have hpx : isWs x = false := by
      have := List.head?_dropWhile_not isWs (trimL s).reverse
      rw [hx] at this
      simpa using this
    rw [hrev, hx]
    simp [endsNonWs, List.getLast?_reverse, hpx]

theorem splitNl_ne_nil (s : List Char) : splitNl s ≠ [] := by
  cases s with
  | nil => simp [splitNl]
  | cons c rest =>
    simp only [splitNl]
    by_cases hc : c = '\n'
    · simp [hc]
    · simp only [hc, if_false]
      rcases h : splitNl rest with _ | ⟨l, ls⟩ <;> simp

theorem joinNl_splitNl (s : List Char) : joinNl (splitNl s) = s ++ ['\n'] := by
  induction s with
  | nil => simp [splitNl, joinNl]
  | cons c rest ih =>
    by_cases hc : c = '\n'
    · subst hc
      have hs : splitNl ('\n' :: rest) = [] :: splitNl rest := by simp [splitNl]
      rw [hs]
      simp only [joinNl, List.map_cons, List.flatten_cons]
      simp only [joinNl] at ih
      rw [ih]
      simp
    · rcases h : splitNl rest with _ | ⟨l, ls⟩
      · exact absurd h (splitNl_ne_nil rest)
      · have hs : splitNl (c :: rest) = (c :: l) :: ls := by simp [splitNl, hc, h]
        rw [hs]
        simp only [joinNl, List.map_cons, List.flatten_cons]
        have ih2 : (l ++ ['\n']) ++ (ls.map (fun l2 => l2 ++ ['\n'])).flatten =
            rest ++ ['\n'] := by
          simpa only [joinNl, h, List.map_cons, List.flatten_cons] using ih
        calc (c :: l ++ ['\n']) ++ (ls.map (fun l2 => l2 ++ ['\n'])).flatten
            = c :: ((l ++ ['\n']) ++ (ls.map (fun l2 => l2 ++ ['\n'])).flatten) := by
              simp
          _ = c :: (rest ++ ['\n']) := by rw [ih2]
          _ = (c :: rest) ++ ['\n'] := by simp

theorem mem_splitNl_no_newline (s : List Char) :
    ∀ l ∈ splitNl s, '\n' ∉ l := by
  induction s with
  | nil => simp [splitNl]
  | cons c rest ih =>
    by_cases hc : c = '\n'
    · subst hc
      have hs : splitNl ('\n' :: rest) = [] :: splitNl rest := by simp [splitNl]
      rw [hs]
      intro l hl
      rcases List.mem_cons.mp hl with rfl | hl2
      · simp
      · exact ih l hl2
    · rcases h : splitNl rest with _ | ⟨l0, ls⟩
      · exact absurd h (splitNl_ne_nil rest)
      · have hs : splitNl (c :: rest) = (c :: l0) :: ls := by simp [splitNl, hc, h]
        rw [hs]
        intro l hl
        rcases List.mem_cons.mp hl with rfl | hl2
        · intro hmem
          rcases List.mem_cons.mp hmem with h1 | h1
          · exact hc h1.symm
          · exact ih l0 (by rw [h]; exact List.mem_cons_self l0 ls) h1
        · exact ih l (by rw [h]; exact List.mem_cons_of_mem l0 hl2)

theorem glue_append_head (x w : List Char) (tl cs : List (List Char))
    (hlen : tl.length = cs.length) :
    glue ((x ++ w) :: tl) cs = x ++ glue (w :: tl) cs := by
  cases cs with
  | nil =>
    have htl : tl = [] := List.length_eq_zero.mp (by simpa using hlen)
    subst htl
    simp [glue]
  | cons c cs2 =>
    cases tl with
    | nil => simp at hlen
    | cons t tl2 =>
      simp [glue, List.append_assoc]

theorem smartChunkAux_decomp (maxSize : Nat) :
    ∀ (lines : List (List Char)) (cur : List Char) (curSize : Nat),
      ∃ ws : List (List Char),
        ws.length = (smartChunkAux maxSize lines cur curSize).length + 1 ∧
        (∀ w ∈ ws, wsOnly w = true) ∧
        glue ws (smartChunkAux maxSize lines cur curSize) = cur ++ joinNl lines := by
  intro lines
  induction lines with
  | nil =>
    intro cur curSize
    by_cases h : trim cur = []
    · refine ⟨[cur], ?_, ?_, ?_⟩
      · simp [smartChunkAux, h]
      · intro w hw
        rcases List.mem_singleton.mp hw with rfl
        exact (trim_eq_nil_iff w).mp h
      · simp [smartChunkAux, h, glue, joinNl]
    · obtain ⟨pre, suf, hpre, hsuf, hdec⟩ := trim_decomp cur
      refine ⟨[pre, suf], ?_, ?_, ?_⟩
      · simp [smartChunkAux, h]
      · intro w hw
        rcases List.mem_cons.mp hw with rfl | hw2
        · exact hpre
        · rcases List.mem_singleton.mp hw2 with rfl
          exact hsuf
      · simp only [smartChunkAux, h, ne_eq, not_false_eq_true, if_pos, if_true, glue,
          joinNl, List.map_nil, List.flatten_nil, List.append_nil]
        exact hdec.symm
  | cons l ls ih =>
    intro cur curSize
    by_cases hc : curSize + (l.length + 1) > maxSize ∧ trim cur ≠ []
    · obtain ⟨ws2, hlen2, hws2, hglue2⟩ := ih (l ++ ['\n']) (l.length + 1)
      rcases hws0 : ws2 with _ | ⟨w0, tl⟩
      · rw [hws0] at hlen2
        simp at hlen2
      · obtain ⟨pre, suf, hpre, hsuf, hdec⟩ := trim_decomp cur
        refine ⟨pre :: (suf ++ w0) :: tl, ?_, ?_, ?_⟩
        · simp only [smartChunkAux, if_pos hc, List.length_cons]
          rw [hws0] at hlen2
          simpa using hlen2
        · intro w hw
          rcases List.mem_cons.mp hw with rfl | hw2
          · exact hpre
          rcases List.mem_cons.mp hw2 with rfl | hw3
          · rw [wsOnly_append, hsuf]
            have : wsOnly w0 = true := hws2 w0 (hws0 ▸ List.mem_cons_self w0 tl)
            rw [this]
            rfl
          · exact hws2 w (hws0 ▸ List.mem_cons_of_mem w0 hw3)
        · simp only [smartChunkAux, if_pos hc]
          rw [glue]
          have hlentl : tl.length =
              (smartChunkAux maxSize ls (l ++ ['\n']) (l.length + 1)).length := by
            rw [hws0] at hlen2
            simpa using hlen2
          rw [glue_append_head suf w0 tl _ hlentl]
          rw [hws0] at hglue2
          rw [hglue2]
          have hjoin : joinNl (l :: ls) = (l ++ ['\n']) ++ joinNl ls := by
            simp [joinNl]
          rw [hjoin]
          conv_rhs => rw [hdec]
          simp [List.append_assoc]
    · obtain ⟨ws2, hlen2, hws2, hglue2⟩ := ih (cur ++ (l ++ ['\n']))
        (curSize + (l.length + 1))
      refine ⟨ws2, ?_, hws2, ?_⟩
      · simpa only [smartChunkAux, if_neg hc] using hlen2
      · simp only [smartChunkAux, if_neg hc]
        rw [hglue2]
        have hjoin : joinNl (l :: ls) = (l ++ ['\n']) ++ joinNl ls := by
          simp [joinNl]
        rw [hjoin, List.append_assoc]

theorem smartChunkAux_endsNonWs (maxSize : Nat) :
    ∀ (lines : List (List Char)) (cur : List Char) (curSize : Nat),
      ∀ c ∈ smartChunkAux maxSize lines cur curSize,
        c ≠ [] ∧ endsNonWs c = true := by
  intro lines
  induction lines with
  | nil =>
    intro cur curSize c hcmem
    by_cases h : trim cur = []
    · simp [smartChunkAux, h] at hcmem
    · simp only [smartChunkAux, h, ne_eq, not_false_eq_true, if_pos, if_true,
        List.mem_singleton] at hcmem
      subst hcmem
      exact ⟨h, trim_endsNonWs cur h⟩
  | cons l ls ih =>
    intro cur curSize c hcmem
    by_cases hc : curSize + (l.length + 1) > maxSize ∧ trim cur ≠ []
    · simp only [smartChunkAux, if_pos hc, List.mem_cons] at hcmem
      rcases hcmem with rfl | hmem
      · exact ⟨hc.2, trim_endsNonWs cur hc.2⟩
      · exact ih _ _ c hmem
    · simp only [smartChunkAux, if_neg hc] at hcmem
      exact ih _ _ c hcmem

theorem glue_drop_last_newline :
    ∀ (cs ws : List (List Char)) (X : List Char),
      ws.length = cs.length + 1 →
      (∀ w ∈ ws, wsOnly w = true) →
      (∀ c ∈ cs, c ≠ [] ∧ endsNonWs c = true) →
      glue ws cs = X ++ ['\n'] →
      ∃ ws2 : List (List Char), ws2.length = cs.length + 1 ∧
        (∀ w ∈ ws2, wsOnly w = true) ∧ glue ws2 cs = X := by
  intro cs
  induction cs with
  | nil =>
    intro ws X hlen hws _ hglue
    rcases ws with _ | ⟨w, tl⟩
    · simp at hlen
    · have htl : tl = [] := List.length_eq_zero.mp (by simpa using hlen)
      subst htl
      simp only [glue] at hglue
      refine ⟨[X], by simp, ?_, by simp [glue]⟩
      intro w2 hw2
      rcases List.mem_singleton.mp hw2 with rfl
      have hwall : wsOnly w = true := hws w (List.mem_singleton_self w)
      subst hglue
      rw [wsOnly_append] at hwall
      exact (Bool.and_eq_true _ _).mp hwall |>.1
  | cons c cs2 ih =>
    intro ws X hlen hws hcs hglue
    rcases ws with _ | ⟨w, tl⟩
    · simp at hlen
    · have hlentl : tl.length = cs2.length + 1 := by simpa using hlen
      have htlne : tl ≠ [] := by
        intro h
        rw [h] at hlentl
        simp at hlentl
      simp only [glue] at hglue
      set G := glue tl cs2 with hG
      have hGne : G ≠ [] := by
        intro hGnil
        rw [hGnil, List.append_nil] at hglue
        have hlast1 : (w ++ c).getLast? = c.getLast? :=
          List.getLast?_append_of_ne_nil w (hcs c (List.mem_cons_self c cs2)).1
        have hlast2 : (X ++ ['\n']).getLast? = some '\n' := List.getLast?_concat X
        rw [hglue, hlast2] at hlast1
        have hcend := (hcs c (List.mem_cons_self c cs2)).2
        simp only [endsNonWs, ← hlast1] at hcend
        simp [isWs] at hcend
      have hlastG : G.getLast? = some '\n' := by
        have h1 : (w ++ (c ++ G)).getLast? = G.getLast? := by
          rw [List.getLast?_append_of_ne_nil w (by simp [hGne] : c ++ G ≠ [])]
          exact List.getLast?_append_of_ne_nil c hGne
        rw [← List.append_assoc] at h1
        rw [hglue, List.getLast?_concat] at h1
        exact h1.symm
      have hGdecomp : G = G.dropLast ++ ['\n'] := by
        have h1 : G.getLast? = some (G.getLast hGne) :=
          List.getLast?_eq_getLast G hGne
        rw [hlastG] at h1
        have h2 : G.getLast hGne = '\n' := by
          injection h1.symm with h3
        have h4 := List.dropLast_append_getLast hGne
        rw [h2] at h4
        exact h4.symm
      have h3 : (w ++ c) ++ G.dropLast = X := by
        have h2 : ((w ++ c) ++ G.dropLast) ++ ['\n'] = X ++ ['\n'] := by
          rw [List.append_assoc (w ++ c), ← hGdecomp]
          exact hglue
        have h4 := congrArg List.dropLast h2
        rwa [List.dropLast_concat, List.dropLast_concat] at h4
      obtain ⟨ws2, hl2, hw2, hg2⟩ := ih tl G.dropLast hlentl
        (fun w2 hw2 => hws w2 (List.mem_cons_of_mem w hw2))
        (fun c2 hc2 => hcs c2 (List.mem_cons_of_mem c hc2))
        (by rw [← hG, ← hGdecomp])
      refine ⟨w :: ws2, ?_, ?_, ?_⟩
      · simp only [List.length_cons, hl2]
      · intro w2 hw2mem
        rcases List.mem_cons.mp hw2mem with rfl | hmem
        · exact hws w2 (List.mem_cons_self w2 tl)
        · exact hw2 w2 hmem
      · rcases ws2 with _ | ⟨u, us⟩
        · simp at hl2
        · simp only [glue]
          rw [hg2]
          exact h3

/-- C4: for every markdown string and every maxSize, the chunks of
`smartChunkMarkdown`, in index order, reproduce the original markdown up
to whitespace trimmed at chunk boundaries: the original string is exactly
the chunks interleaved with whitespace-only gaps. -/
theorem smartChunkMarkdown_reconstruction (m : List Char) (maxSize : Nat) :
    ∃ ws : List (List Char),
      ws.length = (smartChunkMarkdown m maxSize).length + 1 ∧
      (∀ w ∈ ws, wsOnly w = true) ∧
      glue ws (smartChunkMarkdown m maxSize) = m := by
  obtain ⟨ws, hlen, hws, hglue⟩ := smartChunkAux_decomp maxSize (splitNl m) [] 0
  rw [List.nil_append, joinNl_splitNl m] at hglue
  have hchunks := smartChunkAux_endsNonWs maxSize (splitNl m) [] 0
  obtain ⟨ws2, hl2, hw2, hg2⟩ :=
    glue_drop_last_newline _ ws m hlen hws hchunks hglue
  exact ⟨ws2, hl2, hw2, hg2⟩

theorem smartChunkAux_size (maxSize : Nat) (L0 : List (List Char)) :
    ∀ (lines : List (List Char)) (cur : List Char) (curSize : Nat),
      curSize = cur.length →
      (cur.length ≤ maxSize ∨ ∃ l ∈ L0, trim cur = trim l) →
      (∀ l ∈ lines, l ∈ L0) →
      ∀ c ∈ smartChunkAux maxSize lines cur curSize,
        c.length ≤ maxSize ∨ ∃ l ∈ L0, c = trim l := by
  intro lines
  induction lines with
  | nil =>
    intro cur curSize _ hinv _ c hcmem
    by_cases h : trim cur = []
    · simp [smartChunkAux, h] at hcmem
    · simp only [smartChunkAux, h, ne_eq, not_false_eq_true, if_pos, if_true,
        List.mem_singleton] at hcmem
      subst hcmem
      rcases hinv with h1 | ⟨l, hl, h2⟩
      · exact Or.inl (le_trans (trim_length_le cur) h1)
      · exact Or.inr ⟨l, hl, h2⟩
  | cons l ls ih =>
    intro cur curSize hsize hinv hlines c hcmem
    by_cases hc : curSize + (l.length + 1) > maxSize ∧ trim cur ≠ []
    · simp only [smartChunkAux, if_pos hc, List.mem_cons] at hcmem
      rcases hcmem with rfl | hmem
      · rcases hinv with h1 | ⟨l2, hl2, h2⟩
        · exact Or.inl (le_trans (trim_length_le cur) h1)
        · exact Or.inr ⟨l2, hl2, h2⟩
      · refine ih (l ++ ['\n']) (l.length + 1) (by simp) ?_
          (fun l2 hl2 => hlines l2 (List.mem_cons_of_mem l hl2)) c hmem
        refine Or.inr ⟨l, hlines l (List.mem_cons_self l ls), ?_⟩
        exact trim_append_ws_right l ['\n'] (by decide)
    · simp only [smartChunkAux, if_neg hc] at hcmem
      refine ih (cur ++ (l ++ ['\n'])) (curSize + (l.length + 1)) (by simp [hsize]) ?_
        (fun l2 hl2 => hlines l2 (List.mem_cons_of_mem l hl2)) c hcmem
      rcases not_and_or.mp hc with h1 | h2
      · refine Or.inl ?_
        have hle : curSize + (l.length + 1) ≤ maxSize := Nat.not_lt.mp h1
        simp only [List.length_append, List.length_cons, List.length_nil]
        omega
      · have hws : wsOnly cur = true := (trim_eq_nil_iff cur).mp (by
          simpa using h2)
        refine Or.inr ⟨l, hlines l (List.mem_cons_self l ls), ?_⟩
        rw [trim_append_ws_left cur (l ++ ['\n']) hws]
        exact trim_append_ws_right l ['\n'] (by decide)

/-- C5: every chunk produced by `smartChunkMarkdown` either fits in
`maxSize` characters or is the trim of a single markdown line (and so
contains no newline): a chunk boundary never falls inside a line. -/
theorem smartChunkMarkdown_chunk_size (m : List Char) (maxSize : Nat) :
    ∀ c ∈ smartChunkMarkdown m maxSize,
      c.length ≤ maxSize ∨ ('\n' ∉ c ∧ ∃ l ∈ splitNl m, c = trim l) := by
  intro c hc
  have h := smartChunkAux_size maxSize (splitNl m) (splitNl m) [] 0 rfl
    (Or.inl (by simp)) (fun l hl => hl) c hc
  rcases h with h | ⟨l, hl, rfl⟩
  · exact Or.inl h
  · refine Or.inr ⟨?_, l, hl, rfl⟩
    intro hmem
    exact mem_splitNl_no_newline m l hl ((trim_sublist l).subset hmem)

/-- Witness for C5 at a concrete document: the first chunk of chunking
`"ab\ncd"` at maxSize 2 satisfies the size/line disjunction. -/
theorem smartChunkMarkdown_chunk_size_witness :
    (['a', 'b'] : List Char).length ≤ 2 ∨
      ('\n' ∉ (['a', 'b'] : List Char) ∧
        ∃ l ∈ splitNl c5Md, (['a', 'b'] : List Char) = trim l) :=
  smartChunkMarkdown_chunk_size c5Md 2 ['a', 'b'] (by decide)

theorem findVec_id {vh : List SearchResult} {i : String} {vr : SearchResult}
    (h : findVec vh i = some vr) : vr.id = i := by
  have h2 : List.find? (fun v => decide (v.id = i)) vh = some vr := h
  have h3 := List.find?_some h2
  simpa using h3

theorem findVec_mem {vh : List SearchResult} {i : String} {vr : SearchResult}
    (h : findVec vh i = some vr) : vr ∈ vh :=
  List.mem_of_find?_eq_some h

theorem addBothMatches_inv (vh : List SearchResult) :
    ∀ (kh : List KeywordRow) (seen : List String),
      (∀ r ∈ (addBothMatches vh kh seen).1, r.id ∉ seen) ∧
      ((addBothMatches vh kh seen).1.map SearchResult.id).Nodup ∧
      (∀ x, x ∈ (addBothMatches vh kh seen).2 ↔
        x ∈ seen ∨ x ∈ (addBothMatches vh kh seen).1.map SearchResult.id) := by
  intro kh
  induction kh with
  | nil =>
    intro seen
    refine ⟨by simp [addBothMatches], by simp [addBothMatches], ?_⟩
    intro x
    simp [addBothMatches]
  | cons k ks ih =>
    intro seen
    by_cases hcond : k.id ∈ vectorIds vh ∧ k.id ∉ seen
    · rcases hfv : findVec vh k.id with _ | vr
      · simp only [addBothMatches, if_pos hcond, hfv]
        exact ih seen
      · simp only [addBothMatches, if_pos hcond, hfv]
        obtain ⟨ih1, ih2, ih3⟩ := ih (k.id :: seen)
        have hvrid : (boostResult vr).id = k.id := by
          simpa [boostResult] using findVec_id hfv
        refine ⟨?_, ?_, ?_⟩
        · intro r hr
          rcases List.mem_cons.mp hr with rfl | hmem
          · rw [hvrid]
            exact hcond.2
          · intro hcontra
            exact ih1 r hmem (List.mem_cons_of_mem _ hcontra)
        · simp only [List.map_cons, List.nodup_cons]
          refine ⟨?_, ih2⟩
          rw [hvrid]
          intro hcontra
          rcases List.mem_map.mp hcontra with ⟨r, hrm, hrid⟩
          exact ih1 r hrm (by rw [hrid]; exact List.mem_cons_self k.id seen)
        · intro x
          rw [ih3 x]
          simp only [List.mem_cons, List.map_cons, hvrid]
          tauto
    · simp only [addBothMatches, if_neg hcond]
      exact ih seen

theorem addVectorOnly_inv (mc : Nat) :
    ∀ (vhs : List SearchResult) (seen : List String) (len : Nat),
      (∀ r ∈ (addVectorOnly mc vhs seen len).1, r.id ∉ seen) ∧
      ((addVectorOnly mc vhs seen len).1.map SearchResult.id).Nodup ∧
      (∀ x, x ∈ (addVectorOnly mc vhs seen len).2 ↔
        x ∈ seen ∨ x ∈ (addVectorOnly mc vhs seen len).1.map SearchResult.id) := by
  intro vhs
  induction vhs with
  | nil =>
    intro seen len
    refine ⟨by simp [addVectorOnly], by simp [addVectorOnly], ?_⟩
    intro x
    simp [addVectorOnly]
  | cons v vs ih =>
    intro seen len
    by_cases hcond : v.id ≠ "" ∧ v.id ∉ seen ∧ len < mc
    · simp only [addVectorOnly, if_pos hcond]
      obtain ⟨ih1, ih2, ih3⟩ := ih (v.id :: seen) (len + 1)
      refine ⟨?_, ?_, ?_⟩
      · intro r hr
        rcases List.mem_cons.mp hr with rfl | hmem
        · exact hcond.2.1
        · intro hcontra
          exact ih1 r hmem (List.mem_cons_of_mem _ hcontra)
      · simp only [List.map_cons, List.nodup_cons]
        refine ⟨?_, ih2⟩
        intro hcontra
        rcases List.mem_map.mp hcontra with ⟨r, hrm, hrid⟩
        exact ih1 r hrm (by rw [hrid]; exact List.mem_cons_self v.id seen)
      · intro x
        rw [ih3 x]
        simp only [List.mem_cons, List.map_cons]
        tauto
    · simp only [addVectorOnly, if_neg hcond]
      exact ih seen len

theorem addKeywordOnly_inv (mc : Nat) :
    ∀ (khs : List KeywordRow) (seen : List String) (len : Nat),
      (∀ r ∈ (addKeywordOnly mc khs seen len).1, r.id ∉ seen) ∧
      ((addKeywordOnly mc khs seen len).1.map SearchResult.id).Nodup ∧
      (∀ x, x ∈ (addKeywordOnly mc khs seen len).2 ↔
        x ∈ seen ∨ x ∈ (addKeywordOnly mc khs seen len).1.map SearchResult.id) := by
  intro khs
  induction khs with
  | nil =>
    intro seen len
    refine ⟨by simp [addKeywordOnly], by simp [addKeywordOnly], ?_⟩
    intro x
    simp [addKeywordOnly]
  | cons k ks ih =>
    intro seen len
    by_cases hcond : k.id ∉ seen ∧ len < mc
    · simp only [addKeywordOnly, if_pos hcond]
      obtain ⟨ih1, ih2, ih3⟩ := ih (k.id :: seen) (len + 1)
      have hkid : (convertKeywordRow k).id = k.id := rfl
      refine ⟨?_, ?_, ?_⟩
      · intro r hr
        rcases List.mem_cons.mp hr with rfl | hmem
        · rw [hkid]
          exact hcond.1
        · intro hcontra
          exact ih1 r hmem (List.mem_cons_of_mem _ hcontra)
      · simp only [List.map_cons, List.nodup_cons, hkid]
        refine ⟨?_, ih2⟩
        intro hcontra
        rcases List.mem_map.mp hcontra with ⟨r, hrm, hrid⟩
        exact ih1 r hrm (by rw [hrid]; exact List.mem_cons_self k.id seen)
      · intro x
        rw [ih3 x]
        simp only [List.mem_cons, List.map_cons, hkid]
        tauto
    · simp only [addKeywordOnly, if_neg hcond]
      exact ih seen len

theorem combineHybrid_nodup (vh : List SearchResult)
    (khOpt : Option (List KeywordRow)) (mc : Nat) :
    ((combineHybrid vh khOpt mc).map SearchResult.id).Nodup := by
  cases khOpt with
  | none =>
    simp only [combineHybrid]
    simp only [List.nil_append, List.append_nil]
    exact (addVectorOnly_inv mc vh [] 0).2.1
  | some kh =>
    simp only [combineHybrid]
    obtain ⟨hA1, hA2, hA3⟩ := addBothMatches_inv vh kh []
    set A := addBothMatches vh kh [] with hA
    obtain ⟨hB1, hB2, hB3⟩ := addVectorOnly_inv mc vh A.2 A.1.length
    set B := addVectorOnly mc vh A.2 A.1.length with hB
    obtain ⟨hC1, hC2, hC3⟩ := addKeywordOnly_inv mc kh B.2 (A.1.length + B.1.length)
    set C := addKeywordOnly mc kh B.2 (A.1.length + B.1.length) with hC
    have hAsub : ∀ x ∈ A.1.map SearchResult.id, x ∈ A.2 := by
      intro x hx
      exact (hA3 x).mpr (Or.inr hx)
    have hBsub : ∀ x ∈ B.1.map SearchResult.id, x ∈ B.2 := by
      intro x hx
      exact (hB3 x).mpr (Or.inr hx)
    have hA2subB2 : ∀ x ∈ A.2, x ∈ B.2 := by
      intro x hx
      exact (hB3 x).mpr (Or.inl hx)
    rw [List.append_assoc, List.map_append, List.map_append, List.nodup_append]
    refine ⟨hA2, ?_, ?_⟩
    · rw [List.nodup_append]
      refine ⟨hB2, hC2, ?_⟩
      intro x hxB hxC
      rcases List.mem_map.mp hxC with ⟨r, hrm, hrid⟩
      exact hC1 r hrm (by rw [hrid]; exact hBsub x hxB)
    · intro x hxA hxBC
      rcases List.mem_append.mp hxBC with hxB | hxC
      · rcases List.mem_map.mp hxB with ⟨r, hrm, hrid⟩
        exact hB1 r hrm (by rw [hrid]; exact hAsub x hxA)
      · rcases List.mem_map.mp hxC with ⟨r, hrm, hrid⟩
        exact hC1 r hrm (by rw [hrid]; exact hA2subB2 x (hAsub x hxA))

/-- C2: the returned result list of the search tool has length at most
`match_count` and no two entries share an id — unconditionally in hybrid
mode (any keyword outcome), and in non-hybrid mode because the vector
search honours the store contract. -/
theorem searchResults_bounded_nodup (useHybrid : Bool)
    (vectorSearch : Nat → List SearchResult)
    (khOpt : Option (List KeywordRow)) (mc : Nat)
    (hcontract : vectorSearchContract vectorSearch) :
    (searchResults useHybrid vectorSearch khOpt mc).length ≤ mc ∧
    ((searchResults useHybrid vectorSearch khOpt mc).map SearchResult.id).Nodup := by
  cases useHybrid with
  | false =>
    simp only [searchResults, Bool.false_eq_true, if_false]
    exact hcontract mc
  | true =>
    simp only [searchResults, if_true]
    constructor
    · rw [List.length_take]
      exact min_le_left mc _
    · rw [List.map_take]
      exact (combineHybrid_nodup (vectorSearch (mc * 2)) khOpt mc).sublist
        (List.take_sublist mc _)

/-- Witness for C2 at a concrete call: one vector hit, hybrid mode,
match_count 1. -/
theorem searchResults_bounded_nodup_witness :
    (searchResults true (fun n => [sampleResult].take n) (some []) 1).length ≤ 1 ∧
    ((searchResults true (fun n => [sampleResult].take n)
      (some []) 1).map SearchResult.id).Nodup :=
  searchResults_bounded_nodup true (fun n => [sampleResult].take n) (some []) 1
    (by
      intro n
      constructor
      · rw [List.length_take]
        exact min_le_left n _
      · rw [List.map_take]
        exact (show ([sampleResult].map SearchResult.id).Nodup by simp).sublist
          (List.take_sublist n _))

theorem addBothMatches_mem_of (vh : List SearchResult) :
    ∀ (kh : List KeywordRow) (seen : List String) (id0 : String) (vr : SearchResult),
      id0 ∈ kh.map KeywordRow.id → id0 ∉ seen →
      findVec vh id0 = some vr → id0 ∈ vectorIds vh →
      boostResult vr ∈ (addBothMatches vh kh seen).1 := by
  intro kh
  induction kh with
  | nil =>
    intro seen id0 vr h
    simp at h
  | cons k ks ih =>
    intro seen id0 vr hkm hseen hfv hvid
    by_cases hk : k.id = id0
    · have hcond : k.id ∈ vectorIds vh ∧ k.id ∉ seen := ⟨hk ▸ hvid, hk ▸ hseen⟩
      have hfv2 : findVec vh k.id = some vr := by rw [hk]; exact hfv
      simp only [addBothMatches, if_pos hcond, hfv2]
      exact List.mem_cons_self _ _
    · have hkm2 : id0 ∈ ks.map KeywordRow.id := by
        rcases List.mem_map.mp hkm with ⟨k2, hk2m, hk2id⟩
        rcases List.mem_cons.mp hk2m with rfl | h2
        · exact absurd hk2id hk
        · exact List.mem_map.mpr ⟨k2, h2, hk2id⟩
      by_cases hcond : k.id ∈ vectorIds vh ∧ k.id ∉ seen
      · rcases hfvk : findVec vh k.id with _ | vr2
        · simp only [addBothMatches, if_pos hcond, hfvk]
          exact ih seen id0 vr hkm2 hseen hfv hvid
        · simp only [addBothMatches, if_pos hcond, hfvk]
          refine List.mem_cons_of_mem _ (ih (k.id :: seen) id0 vr hkm2 ?_ hfv hvid)
          simp only [List.mem_cons]
          push_neg
          exact ⟨fun h => hk h.symm, hseen⟩
      · simp only [addBothMatches, if_neg hcond]
        exact ih seen id0 vr hkm2 hseen hfv hvid

theorem addBothMatches_elem (vh : List SearchResult) :
    ∀ (kh : List KeywordRow) (seen : List String) (r : SearchResult),
      r ∈ (addBothMatches vh kh seen).1 →
      ∃ vr, findVec vh r.id = some vr ∧ r = boostResult vr := by
  intro kh
  induction kh with
  | nil =>
    intro seen r h
    simp [addBothMatches] at h
  | cons k ks ih =>
    intro seen r hr
    by_cases hcond : k.id ∈ vectorIds vh ∧ k.id ∉ seen
    · rcases hfv : findVec vh k.id with _ | vr2
      · simp only [addBothMatches, if_pos hcond, hfv] at hr
        exact ih seen r hr
      · simp only [addBothMatches, if_pos hcond, hfv] at hr
        rcases List.mem_cons.mp hr with rfl | hmem
        · refine ⟨vr2, ?_, rfl⟩
          have hbid : (boostResult vr2).id = k.id := by
            simpa [boostResult] using findVec_id hfv
          rw [hbid]
          exact hfv
        · exact ih _ r hmem
    · simp only [addBothMatches, if_neg hcond] at hr
      exact ih seen r hr

/-- C6: for an id present in both the keyword hits and the vector hits
(as the first vector hit `vr`), every merged entry carrying that id — and
one exists — has similarity exactly `min 1 (vr.similarity * 1.2)`. -/
theorem combineHybrid_boost (vh : List SearchResult) (kh : List KeywordRow)
    (mc : Nat) (id0 : String) (vr : SearchResult)
    (hid : id0 ≠ "") (hkmem : id0 ∈ kh.map KeywordRow.id)
    (hfind : findVec vh id0 = some vr) :
    (∃ r ∈ combineHybrid vh (some kh) mc, r.id = id0) ∧
    (∀ r ∈ combineHybrid vh (some kh) mc, r.id = id0 →
      r.similarity = min 1 (vr.similarity * (6 / 5))) := by
  have hvid : id0 ∈ vectorIds vh := by
    have hmem := findVec_mem hfind
    have hvrid := findVec_id hfind
    simp only [vectorIds, List.mem_filter]
    exact ⟨List.mem_map.mpr ⟨vr, hmem, hvrid⟩, by simpa using hid⟩
  obtain ⟨hA1, hA2, hA3⟩ := addBothMatches_inv vh kh []
  set A := addBothMatches vh kh [] with hA
  obtain ⟨hB1, hB2, hB3⟩ := addVectorOnly_inv mc vh A.2 A.1.length
  set B := addVectorOnly mc vh A.2 A.1.length with hB
  obtain ⟨hC1, hC2, hC3⟩ := addKeywordOnly_inv mc kh B.2 (A.1.length + B.1.length)
  set C := addKeywordOnly mc kh B.2 (A.1.length + B.1.length) with hC
  have hcomb : combineHybrid vh (some kh) mc = A.1 ++ B.1 ++ C.1 := rfl
  have hmemA : boostResult vr ∈ A.1 :=
    addBothMatches_mem_of vh kh [] id0 vr hkmem (by simp) hfind hvid
  have hbid : (boostResult vr).id = id0 := by
    simpa [boostResult] using findVec_id hfind
  have hid0A2 : id0 ∈ A.2 :=
    (hA3 id0).mpr (Or.inr (List.mem_map.mpr ⟨_, hmemA, hbid⟩))
  constructor
  · refine ⟨boostResult vr, ?_, hbid⟩
    rw [hcomb]
    exact List.mem_append_left _ (List.mem_append_left _ hmemA)
  · intro r hr hrid
    rw [hcomb] at hr
    rcases List.mem_append.mp hr with h1 | hCmem
    · rcases List.mem_append.mp h1 with hAmem | hBmem
      · obtain ⟨vr2, hf2, rfl⟩ := addBothMatches_elem vh kh [] r hAmem
        rw [hrid] at hf2
        have hvv : vr2 = vr := Option.some.inj (hf2.symm.trans hfind)
        rw [hvv]
        simp [boostResult, boostSim]
      · exact absurd (hrid ▸ hid0A2) (hB1 r hBmem)
    · exact absurd (hrid ▸ ((hB3 id0).mpr (Or.inl hid0A2))) (hC1 r hCmem)

/-- Witness for C6 at one vector hit and one keyword hit sharing id
`"1"`: the merged entry's similarity is the boosted vector similarity. -/
theorem combineHybrid_boost_witness :
    (∃ r ∈ combineHybrid [sampleResult] (some [sampleKw]) 5, r.id = "1") ∧
    (∀ r ∈ combineHybrid [sampleResult] (some [sampleKw]) 5, r.id = "1" →
      r.similarity = min 1 (sampleResult.similarity * (6 / 5))) :=
  combineHybrid_boost [sampleResult] [sampleKw] 5 "1" sampleResult
    (by decide) (by decide) (by simp [findVec, sampleResult])

theorem findVec_isSome_of_mem (vh : List SearchResult) (i : String)
    (h : i ∈ vectorIds vh) : ∃ vr, findVec vh i = some vr := by
  simp only [vectorIds, List.mem_filter] at h
  rcases List.mem_map.mp h.1 with ⟨v, hv, hvid⟩
  have hsome : (List.find? (fun vr => decide (vr.id = i)) vh).isSome :=
    List.find?_isSome.mpr ⟨v, hv, by simpa using hvid⟩
  exact Option.isSome_iff_exists.mp hsome

theorem addBothMatches_eq (vh : List SearchResult) :
    ∀ (kh : List KeywordRow) (seen : List String),
      (kh.map KeywordRow.id).Nodup →
      (∀ k ∈ kh, k.id ∉ seen) →
      addBothMatches vh kh seen =
        ((kh.filter (fun k => k.id ∈ vectorIds vh)).filterMap
          (fun k => (findVec vh k.id).map boostResult),
         ((kh.filter (fun k => k.id ∈ vectorIds vh)).map KeywordRow.id).reverse
           ++ seen) := by
  intro kh
  induction kh with
  | nil =>
    intro seen _ _
    simp [addBothMatches]
  | cons k ks ih =>
    intro seen hnd hfresh
    have hndc : (k.id :: ks.map KeywordRow.id).Nodup := by
      rw [List.map_cons] at hnd
      exact hnd
    have hnd2 := List.nodup_cons.mp hndc
    by_cases hin : k.id ∈ vectorIds vh
    · have hcond : k.id ∈ vectorIds vh ∧ k.id ∉ seen :=
        ⟨hin, hfresh k (List.mem_cons_self k ks)⟩
      obtain ⟨vr, hvr⟩ := findVec_isSome_of_mem vh k.id hin
      simp only [addBothMatches, if_pos hcond, hvr]
      rw [ih (k.id :: seen) hnd2.2 ?fresh]
      case fresh =>
        intro k2 hk2
        simp only [List.mem_cons]
        push_neg
        refine ⟨?_, hfresh k2 (List.mem_cons_of_mem k hk2)⟩
        intro hcontra
        exact hnd2.1 (hcontra ▸ List.mem_map_of_mem KeywordRow.id hk2)
      rw [List.filter_cons_of_pos (by simpa using hin)]
      rw [List.filterMap_cons_some (by rw [hvr]; rfl)]
      simp only [List.map_cons, List.reverse_cons, Prod.mk.injEq, true_and,
        List.append_assoc, List.singleton_append, and_self]
    · have hcondf : ¬ (k.id ∈ vectorIds vh ∧ k.id ∉ seen) := fun hc => hin hc.1
      simp only [addBothMatches, if_neg hcondf]
      rw [ih seen hnd2.2 (fun k2 hk2 => hfresh k2 (List.mem_cons_of_mem k hk2))]
      rw [List.filter_cons_of_neg (by simpa using hin)]

theorem addVectorOnly_eq (mc : Nat) :
    ∀ (vhs : List SearchResult) (seen : List String) (len : Nat),
      (vhs.map SearchResult.id).Nodup →
      (addVectorOnly mc vhs seen len).1 =
        (vhs.filter (fun v => v.id ≠ "" ∧ v.id ∉ seen)).take (mc - len) := by
  intro vhs
  induction vhs with
  | nil =>
    intro seen len _
    simp [addVectorOnly]
  | cons v vs ih =>
    intro seen len hnd
    have hndc : (v.id :: vs.map SearchResult.id).Nodup := by
      rw [List.map_cons] at hnd
      exact hnd
    have hnd2 := List.nodup_cons.mp hndc
    by_cases hp : v.id ≠ "" ∧ v.id ∉ seen
    · by_cases hl : len < mc
      · have hcond : v.id ≠ "" ∧ v.id ∉ seen ∧ len < mc := ⟨hp.1, hp.2, hl⟩
        simp only [addVectorOnly, if_pos hcond]
        rw [ih (v.id :: seen) (len + 1) hnd2.2]
        have hfeq : vs.filter (fun v2 => decide (v2.id ≠ "" ∧ v2.id ∉ v.id :: seen))
            = vs.filter (fun v2 => decide (v2.id ≠ "" ∧ v2.id ∉ seen)) := by
          refine List.filter_congr ?_
          intro v2 hv2
          have hne : v2.id ≠ v.id := fun h =>
            hnd2.1 (h ▸ List.mem_map_of_mem SearchResult.id hv2)
          simp [List.mem_cons, hne]
        rw [hfeq]
        rw [List.filter_cons_of_pos (by simpa using hp)]
        have h1 : mc - len = (mc - (len + 1)) + 1 := by omega
        rw [h1, List.take_succ_cons]
      · have hcondf : ¬ (v.id ≠ "" ∧ v.id ∉ seen ∧ len < mc) :=
          fun hc => hl hc.2.2
        simp only [addVectorOnly, if_neg hcondf]
        rw [ih seen len hnd2.2]
        have h0 : mc - len = 0 := Nat.sub_eq_zero_of_le (Nat.not_lt.mp hl)
        simp [h0]
    · have hcondf : ¬ (v.id ≠ "" ∧ v.id ∉ seen ∧ len < mc) :=
        fun hc => hp ⟨hc.1, hc.2.1⟩
      simp only [addVectorOnly, if_neg hcondf]
      rw [ih seen len hnd2.2]
      rw [List.filter_cons_of_neg (by simpa using hp)]

theorem addKeywordOnly_eq (mc : Nat) :
    ∀ (khs : List KeywordRow) (seen : List String) (len : Nat),
      (khs.map KeywordRow.id).Nodup →
      (addKeywordOnly mc khs seen len).1 =
        ((khs.filter (fun k => k.id ∉ seen)).map convertKeywordRow).take
          (mc - len) := by
  intro khs
  induction khs with
  | nil =>
    intro seen len _
    simp [addKeywordOnly]
  | cons k ks ih =>
    intro seen len hnd
    have hndc : (k.id :: ks.map KeywordRow.id).Nodup := by
      rw [List.map_cons] at hnd
      exact hnd
    have hnd2 := List.nodup_cons.mp hndc
    by_cases hp : k.id ∉ seen
    · by_cases hl : len < mc
      · have hcond : k.id ∉ seen ∧ len < mc := ⟨hp, hl⟩
        simp only [addKeywordOnly, if_pos hcond]
        rw [ih (k.id :: seen) (len + 1) hnd2.2]
        have hfeq : ks.filter (fun k2 => decide (k2.id ∉ k.id :: seen))
            = ks.filter (fun k2 => decide (k2.id ∉ seen)) := by
          refine List.filter_congr ?_
          intro k2 hk2
          have hne : k2.id ≠ k.id := fun h =>
            hnd2.1 (h ▸ List.mem_map_of_mem KeywordRow.id hk2)
          simp [List.mem_cons, hne]
        rw [hfeq]
        rw [List.filter_cons_of_pos (by simpa using hp)]
        have h1 : mc - len = (mc - (len + 1)) + 1 := by omega
        rw [h1, List.map_cons, List.take_succ_cons]
      · have hcondf : ¬ (k.id ∉ seen ∧ len < mc) := fun hc => hl hc.2
        simp only [addKeywordOnly, if_neg hcondf]
        rw [ih seen len hnd2.2]
        have h0 : mc - len = 0 := Nat.sub_eq_zero_of_le (Nat.not_lt.mp hl)
        simp [h0]
    · have hcondf : ¬ (k.id ∉ seen ∧ len < mc) := fun hc => hp hc.1
      simp only [addKeywordOnly, if_neg hcondf]
      rw [ih seen len hnd2.2]
      rw [List.filter_cons_of_neg (by simpa using hp)]

theorem bothPhase_ids (vh : List SearchResult) :
    ∀ (l : List KeywordRow), (∀ k ∈ l, k.id ∈ vectorIds vh) →
      ((l.filterMap (fun k => (findVec vh k.id).map boostResult)).map
        SearchResult.id) = l.map KeywordRow.id := by
  intro l
  induction l with
  | nil => intro _; simp
  | cons k ks ih =>
    intro hall
    obtain ⟨vr, hvr⟩ := findVec_isSome_of_mem vh k.id
      (hall k (List.mem_cons_self k ks))
    rw [List.filterMap_cons_some (by rw [hvr]; rfl)]
    simp only [List.map_cons]
    rw [ih (fun k2 h2 => hall k2 (List.mem_cons_of_mem k h2))]
    have hbid : (boostResult vr).id = k.id := by
      simpa [boostResult] using findVec_id hvr
    rw [hbid]

/-- C1: with store-contract hit lists (vector ids pairwise distinct and
non-empty, keyword ids pairwise distinct), the hybrid merge builds the
combined list in exactly the claimed order: every both-signal keyword hit
contributes its boosted vector result first, then vector-only hits follow
in their original order until `match_count` results are present, then
keyword-only hits at similarity 0.5 until `match_count` results are
present. -/
theorem combineHybrid_matches_claim (vh : List SearchResult)
    (kh : List KeywordRow) (mc : Nat)
    (hvnd : (vh.map SearchResult.id).Nodup)
    (hvt : ∀ v ∈ vh, v.id ≠ "")
    (hknd : (kh.map KeywordRow.id).Nodup) :
    combineHybrid vh (some kh) mc = claimMerge vh kh mc := by
  have hAeq := addBothMatches_eq vh kh [] hknd (by simp)
  set A := addBothMatches vh kh [] with hAdef
  have hBeq := addVectorOnly_eq mc vh A.2 A.1.length hvnd
  obtain ⟨hB1inv, hB2inv, hB3inv⟩ := addVectorOnly_inv mc vh A.2 A.1.length
  set B := addVectorOnly mc vh A.2 A.1.length with hBdef
  have hCeq := addKeywordOnly_eq mc kh B.2 (A.1.length + B.1.length) hknd
  set C := addKeywordOnly mc kh B.2 (A.1.length + B.1.length) with hCdef
  have hA1 : A.1 = (kh.filter (fun k => k.id ∈ vectorIds vh)).filterMap
      (fun k => (findVec vh k.id).map boostResult) := by
    rw [hAeq]
  have hA2 : A.2 = ((kh.filter (fun k => k.id ∈ vectorIds vh)).map
      KeywordRow.id).reverse := by
    rw [hAeq]
    simp
  have hclaimA : claimBothPhase vh kh =
      (kh.filter (fun k => k.id ∈ vectorIds vh)).filterMap
        (fun k => (findVec vh k.id).map boostResult) := by
    unfold claimBothPhase
    congr 1
    refine List.filter_congr ?_
    intro k hk
    have hiff : (k.id ∈ vh.map SearchResult.id) ↔ (k.id ∈ vectorIds vh) := by
      constructor
      · intro h
        simp only [vectorIds, List.mem_filter]
        refine ⟨h, ?_⟩
        rcases List.mem_map.mp h with ⟨v, hv, hvid⟩
        have hne := hvt v hv
        rw [hvid] at hne
        simpa using hne
      · intro h
        simp only [vectorIds, List.mem_filter] at h
        exact h.1
    simp [hiff]
  have hAclaim : A.1 = claimBothPhase vh kh := by rw [hA1, hclaimA]
  have hseen1 : ∀ x, x ∈ A.2 ↔ ∃ k ∈ kh, k.id ∈ vectorIds vh ∧ k.id = x := by
    intro x
    rw [hA2, List.mem_reverse]
    constructor
    · intro h
      rcases List.mem_map.mp h with ⟨k, hkF, hkid⟩
      have h2 := List.mem_filter.mp hkF
      exact ⟨k, h2.1, by simpa using h2.2, hkid⟩
    · rintro ⟨k, hk, hin, rfl⟩
      exact List.mem_map_of_mem _ (List.mem_filter.mpr ⟨hk, by simpa using hin⟩)
  have hBfil : vh.filter (fun v => decide (v.id ≠ "" ∧ v.id ∉ A.2)) =
      claimVectorOnly vh kh := by
    unfold claimVectorOnly
    refine List.filter_congr ?_
    intro v hv
    have hvt2 := hvt v hv
    have hiff : (v.id ≠ "" ∧ v.id ∉ A.2) ↔ (v.id ∉ kh.map KeywordRow.id) := by
      constructor
      · rintro ⟨_, hnot⟩ hcontra
        rcases List.mem_map.mp hcontra with ⟨k, hk, hkid⟩
        refine hnot ((hseen1 v.id).mpr ⟨k, hk, ?_, hkid⟩)
        rw [hkid]
        simp only [vectorIds, List.mem_filter]
        exact ⟨List.mem_map_of_mem _ hv, by simpa using hvt2⟩
      · intro hnot
        refine ⟨hvt2, fun hcontra => ?_⟩
        rcases (hseen1 v.id).mp hcontra with ⟨k, hk, _, hkid⟩
        exact hnot (List.mem_map.mpr ⟨k, hk, hkid⟩)
    simp [hiff]
  have hBclaim : B.1 = (claimVectorOnly vh kh).take
      (mc - (claimBothPhase vh kh).length) := by
    rw [hBeq, hBfil, hAclaim]
  have hCfil : kh.filter (fun k => decide (k.id ∉ B.2)) =
      kh.filter (fun k => decide (k.id ∉ vh.map SearchResult.id)) := by
    refine List.filter_congr ?_
    intro k hk
    have hiff : (k.id ∈ B.2) ↔ (k.id ∈ vh.map SearchResult.id) := by
      rw [hB3inv k.id]
      constructor
      · rintro (h | h)
        · rcases (hseen1 k.id).mp h with ⟨k2, _, hin2, hkid2⟩
          have hmem : k.id ∈ vectorIds vh := hkid2 ▸ hin2
          simp only [vectorIds, List.mem_filter] at hmem
          exact hmem.1
        · rcases List.mem_map.mp h with ⟨r, hr, hrid⟩
          rw [hBeq] at hr
          have hrvh : r ∈ vh := List.mem_of_mem_filter (List.mem_of_mem_take hr)
          exact hrid ▸ List.mem_map_of_mem _ hrvh
      · intro h
        refine Or.inl ((hseen1 k.id).mpr ⟨k, hk, ?_, rfl⟩)
        simp only [vectorIds, List.mem_filter]
        refine ⟨h, ?_⟩
        rcases List.mem_map.mp h with ⟨v, hv, hvid⟩
        have hne := hvt v hv
        rw [hvid] at hne
        simpa using hne
    simp [hiff]
  have hCclaim : C.1 = (claimKeywordOnly vh kh).take
      (mc - ((claimBothPhase vh kh).length +
        ((claimVectorOnly vh kh).take
          (mc - (claimBothPhase vh kh).length)).length)) := by
    rw [hCeq, hCfil, hAclaim, hBclaim]
    rfl
  have hcomb : combineHybrid vh (some kh) mc = A.1 ++ B.1 ++ C.1 := rfl
  rw [hcomb, hAclaim, hBclaim, hCclaim]
  rfl

/-- Witness for C1 (the spec's own scenario shape): two vector hits, two
keyword hits sharing one id, match_count 3 — the merge equals the claimed
order. -/
theorem combineHybrid_matches_claim_witness :
    combineHybrid [mkRes "a" 1, mkRes "b" (1 / 2)]
      (some [mkKw "a", mkKw "e"]) 3 =
    claimMerge [mkRes "a" 1, mkRes "b" (1 / 2)] [mkKw "a", mkKw "e"] 3 :=
  combineHybrid_matches_claim [mkRes "a" 1, mkRes "b" (1 / 2)]
    [mkKw "a", mkKw "e"] 3 (by decide) (by decide) (by decide)

/-- Witness for C8: upserting into a store already holding the source
leaves exactly one row for it. -/
theorem updateSourceInfo_upsert_witness :
    (((updateSourceInfo [c8Row] "example.com" "new" 2).filter
      (fun r => decide (r.source_id = "example.com"))).length = 1) :=
  (updateSourceInfo_upsert [c8Row] "example.com" "new" 2 (by simp)).1

end Context4all
